import Mathlib

/-
Verification of scripts/esm_migration/update_imports.py.

Strings are modeled as lists of characters (Chars), filesystem paths as
lists of path components (one component per name between slashes), and the
filesystem as the lists of existing files and existing directories.
Python exceptions (the ValueError that Path.with_suffix raises on a path
with an empty name) are modeled with Except Unit.
-/

abbrev Chars := List Char

/-- A filesystem snapshot: the set of existing regular files and the set of
existing directories, each named by its resolved absolute path, given as the
list of path components from the root. -/
structure FS where
  files : List (List Chars)
  dirs : List (List Chars)

/-- Model of Python Path.exists resolving a candidate path: true when the path
names an existing file or an existing directory. -/
def fsExists (fs : FS) (p : List Chars) : Bool :=
  fs.files.contains p || fs.dirs.contains p

/-- Model of Python Path.is_dir. -/
def fsIsDir (fs : FS) (p : List Chars) : Bool :=
  fs.dirs.contains p

/-- Model of Python str.split applied with separator slash: cut the string at
every slash, keeping empty pieces. -/
def splitSlash : Chars → List Chars
  | [] => [[]]
  | c :: cs =>
    if c = '/' then [] :: splitSlash cs
    else
      match splitSlash cs with
      | [] => [[c]]
      | t :: ts => (c :: t) :: ts

/-- The last element of spec.split on slash, that is the final path segment
of the specifier (the piece after the last slash). -/
def lastSeg (s : Chars) : Chars := (splitSlash s).getLastD []

/-- Model of the Python membership test of a dot character in a string. -/
def hasDot (s : Chars) : Bool := s.any (fun c => c = '.')

/-- Model of Python str.endswith. -/
def endsWithS (suf s : Chars) : Bool := suf.isSuffixOf s

/-- Model of Python str.rstrip with a slash argument: remove every trailing
slash. -/
def rstripSlash (s : Chars) : Chars :=
  (s.reverse.dropWhile (fun c => c = '/')).reverse

/-- Components of a relative or absolute path string as Python pathlib parses
it: split on slashes, dropping empty pieces and single-dot pieces. -/
def pathParts (s : Chars) : List Chars :=
  (splitSlash s).filter (fun c => !c.isEmpty && c ≠ ('.' :: []))

/-- Lexical normalization performed by Path.resolve on the joined path:
process components left to right, a dot-dot component removing the last
accumulated component (at the root it stays at the root). -/
def resolveParts (acc : List Chars) : List Chars → List Chars
  | [] => acc
  | c :: rest =>
    if c = ('.' :: '.' :: []) then resolveParts acc.dropLast rest
    else resolveParts (acc ++ [c]) rest

/-- Model of (base_dir / spec).resolve() from the source: joining a path that
begins with a slash discards the base entirely, and the result is normalized.
The base directory is assumed already resolved (it is file_path.parent of a
resolved file path). -/
def pyJoin (base : List Chars) (spec : Chars) : List Chars :=
  if spec.head? = some '/' then resolveParts [] (pathParts spec)
  else resolveParts base (pathParts spec)

/-- Model of PurePath.suffix for a final name component, following CPython:
the suffix runs from the last dot of the name, provided that dot is neither
the first nor the last character; otherwise the suffix is empty. -/
def pySuffix (name : Chars) : Chars :=
  match name.reverse.findIdx? (fun c => c = '.') with
  | none => []
  | some j =>
    if 1 ≤ j ∧ j + 1 < name.length then (name.reverse.take (j + 1)).reverse
    else []

/-- The new final name produced by Path.with_suffix: the old suffix, when
present, is removed before the new extension is appended. -/
def pyWithSuffixName (name ext : Chars) : Chars :=
  name.take (name.length - (pySuffix name).length) ++ ext

/-- Model of Path.with_suffix on a resolved path: none models the ValueError
that CPython raises when the path has an empty name (the filesystem root).
The extensions used by the source are all syntactically valid suffixes, so
the other ValueError branches of with_suffix cannot trigger. -/
def pyWithSuffix (p : List Chars) (ext : Chars) : Option (List Chars) :=
  match p.getLast? with
  | none => none
  | some name => some (p.dropLast ++ [pyWithSuffixName name ext])

def TS_EXTENSIONS : List Chars := [".ts".toList, ".tsx".toList, ".mts".toList]

def JS_EXTENSIONS : List Chars := [".js".toList, ".mjs".toList]

/-- The first guard of resolve_relative_spec: the specifier already ends in
one of the recognized runtime extensions. -/
def hasRuntimeExt (spec : Chars) : Bool :=
  endsWithS (".js".toList) spec || endsWithS (".mjs".toList) spec ||
    endsWithS (".cjs".toList) spec

/-- The loop over direct-file candidates: for each extension in order, build
target.with_suffix(ext) and test its existence, stopping at the first hit.
The error is the ValueError raised by with_suffix when target has an empty
name; it fires on the first iteration, before any existence test. -/
def probeDirect (fs : FS) (target : List Chars) : List Chars → Except Unit Bool
  | [] => .ok false
  | ext :: rest =>
    match pyWithSuffix target ext with
    | none => .error ()
    | some cand => if fsExists fs cand then .ok true else probeDirect fs target rest

/-- The loop over directory-index candidates: for each extension in order,
test existence of target joined with the name index plus the extension. -/
def probeIndex (fs : FS) (target : List Chars) : List Chars → Bool
  | [] => false
  | ext :: rest =>
    if fsExists fs (target ++ ["index".toList ++ ext]) then true
    else probeIndex fs target rest

/-- Model of resolve_relative_spec from the source. The returned value is
ok none for the Python return of None, ok (some s) for a returned string s,
and error for a propagated ValueError. -/
def resolve_relative_spec (fs : FS) (base : List Chars) (spec : Chars) :
    Except Unit (Option Chars) :=
  if hasRuntimeExt spec then .ok none
  else if hasDot (lastSeg spec) then .ok none
  else
    match probeDirect fs (pyJoin base spec) (TS_EXTENSIONS ++ JS_EXTENSIONS) with
    | .error e => .error e
    | .ok true => .ok (some (spec ++ ".js".toList))
    | .ok false =>
      if fsIsDir fs (pyJoin base spec) then
        if probeIndex fs (pyJoin base spec) (TS_EXTENSIONS ++ JS_EXTENSIONS) then
          .ok (some (rstripSlash spec ++ "/index.js".toList))
        else .ok none
      else .ok none

/-
The statement rewriter. The three regular expressions of the source are

  STATIC_IMPORT_RE : (from\s+["'])((?:\.{1,2}|\/)[^"']*)(["'])
  DYNAMIC_IMPORT_RE: (import\(\s*["'])((?:\.{1,2}|\/)[^"']*)(["'])
  EXPORT_FROM_RE   : (export\s+[^;]*?from\s+["'])((?:\.{1,2}|\/)[^"']*)(["'])

Each is modeled by an anchored matcher on the character list: at a given
position it either fails or returns the three captured groups (prefix,
specifier, closing quote) and the remaining text. The backtracking regex
engine is deterministic on these patterns: a greedy whitespace run must be
followed by a quote, and shortening the run leaves a whitespace character
where the quote is required, so only the maximal run can succeed; the
specifier group is the maximal quote-free run after the opening quote and
must begin with a dot or a slash; the lazy [^;]*? of the export shape takes
the first position at which the rest of the pattern succeeds, scanning only
across characters other than the semicolon.
-/

def isQuote (c : Char) : Bool := c = '"' || c = '\''

/-- The characters matched by the regex class backslash-s on ASCII text. -/
def pyIsSpace (c : Char) : Bool :=
  c = ' ' || c = '\t' || c = '\n' || c = '\r' ||
    c = Char.ofNat 11 || c = Char.ofNat 12

/-- Strip an expected literal token from the head of the text. -/
def stripToken : Chars → Chars → Option Chars
  | [], s => some s
  | _ :: _, [] => none
  | c :: cs, d :: ds => if c = d then stripToken cs ds else none

/-- Capture the specifier group and the closing-quote group: the specifier is
the maximal run of quote-free characters, which must be nonempty and begin
with a dot or a slash, and the next character must be a quote (either quote
character closes, per the character class of the patterns). -/
def specAndClose (s : Chars) : Option (Chars × Chars × Chars) :=
  match s.takeWhile (fun c => !isQuote c) with
  | [] => none
  | c :: cs =>
    if c = '.' || c = '/' then
      match s.dropWhile (fun c => !isQuote c) with
      | q2 :: rest => some (c :: cs, [q2], rest)
      | [] => none
    else none

/-- The quoted-specifier tail shared by all three patterns: an opening
quote, the specifier group, the closing quote. The prefix group of the
pattern is the given accumulated prefix text followed by the opening
quote. -/
def quoteSpec (pre : Chars) : Chars → Option (Chars × Chars × Chars × Chars)
  | [] => none
  | q :: s3 =>
    if isQuote q then
      match specAndClose s3 with
      | some (sp, qc, rest) => some (pre ++ [q], sp, qc, rest)
      | none => none
    else none

/-- Anchored matcher for STATIC_IMPORT_RE: the token from, at least one
whitespace character, an opening quote, the specifier, a closing quote. -/
def matchStatic (s : Chars) : Option (Chars × Chars × Chars × Chars) :=
  match stripToken ("from".toList) s with
  | none => none
  | some s1 =>
    if (s1.takeWhile pyIsSpace).isEmpty then none
    else quoteSpec ("from".toList ++ s1.takeWhile pyIsSpace) (s1.dropWhile pyIsSpace)

/-- Anchored matcher for DYNAMIC_IMPORT_RE: the token import followed by an
opening parenthesis, any whitespace, an opening quote, the specifier, a
closing quote. -/
def matchDynamic (s : Chars) : Option (Chars × Chars × Chars × Chars) :=
  match stripToken ("import(".toList) s with
  | none => none
  | some s1 =>
    quoteSpec ("import(".toList ++ s1.takeWhile pyIsSpace) (s1.dropWhile pyIsSpace)

/-- The lazy search of EXPORT_FROM_RE after the export token: scan forward
over characters other than the semicolon and return the first position where
the from-clause part of the pattern (which coincides with the anchored static
matcher) succeeds, accumulating the skipped characters into the prefix
group. -/
def searchFrom : Chars → Chars → Option (Chars × Chars × Chars × Chars)
  | consumed, [] =>
    match matchStatic [] with
    | some (p, sp, qc, rest) => some (consumed ++ p, sp, qc, rest)
    | none => none
  | consumed, c :: cs =>
    match matchStatic (c :: cs) with
    | some (p, sp, qc, rest) => some (consumed ++ p, sp, qc, rest)
    | none => if c = ';' then none else searchFrom (consumed ++ [c]) cs

/-- Anchored matcher for EXPORT_FROM_RE: the token export, at least one
whitespace character, then the lazy search for the from-clause. -/
def matchExport (s : Chars) : Option (Chars × Chars × Chars × Chars) :=
  match stripToken ("export".toList) s with
  | none => none
  | some [] => none
  | some (c :: cs) =>
    if pyIsSpace c then searchFrom ("export".toList ++ [c]) cs else none

/-
regex.sub scans the text left to right, trying the pattern at every
position; at a match it emits the replacement produced by the _replace
callback and resumes after the match, otherwise it emits the character and
advances by one. The callback invokes the resolver on the captured
specifier; when the result is a truthy string different from the captured
specifier it substitutes it between the captured prefix and closing quote
and records the change, otherwise it emits the whole match unchanged. The
recursion is driven by a character-count fuel so that every definition
reduces in the kernel; the scans are always run with fuel equal to the text
length, which the matcher-consumption lemmas below show is sufficient.
-/

/-- The condition under which the _replace callback substitutes: the
resolver returned a truthy (non-None, nonempty) string different from the
captured specifier. -/
def shouldSubst (sp : Chars) : Option Chars → Bool
  | some ns => !ns.isEmpty && ns ≠ sp
  | none => false

def subMF (m : Chars → Option (Chars × Chars × Chars × Chars)) (fs : FS)
    (base : List Chars) : Nat → Chars → Except Unit (Chars × Bool)
  | _, [] => .ok ([], false)
  | 0, c :: cs => .ok (c :: cs, false)
  | fuel + 1, c :: cs =>
    match m (c :: cs) with
    | none =>
      match subMF m fs base fuel cs with
      | .error e => .error e
      | .ok (t, ch) => .ok (c :: t, ch)
    | some (p, sp, qc, rest) =>
      match resolve_relative_spec fs base sp with
      | .error e => .error e
      | .ok res =>
        match subMF m fs base fuel rest with
        | .error e => .error e
        | .ok (t, ch) =>
          if shouldSubst sp res then .ok (p ++ res.getD [] ++ qc ++ t, true)
          else .ok (p ++ sp ++ qc ++ t, ch)

/-- One regex.sub pass over the whole text. -/
def subScan (m : Chars → Option (Chars × Chars × Chars × Chars)) (fs : FS)
    (base : List Chars) (s : Chars) : Except Unit (Chars × Bool) :=
  subMF m fs base s.length s

/-- Model of update_specifiers from the source: the three passes run in
order, each over the output of the previous one, and the changed flag
accumulates across them. -/
def update_specifiers (fs : FS) (base : List Chars) (content : Chars) :
    Except Unit (Chars × Bool) :=
  match subScan matchStatic fs base content with
  | .error e => .error e
  | .ok (c1, ch1) =>
    match subScan matchDynamic fs base c1 with
    | .error e => .error e
    | .ok (c2, ch2) =>
      match subScan matchExport fs base c2 with
      | .error e => .error e
      | .ok (c3, ch3) => .ok (c3, ch1 || ch2 || ch3)

/-- Model of process_file from the source, tracking the on-disk content of
the one processed file: the first component of the result is the content of
the file after the call (rewritten when the changed flag is set, untouched
otherwise) and the second is the returned flag. -/
def process_file (fs : FS) (base : List Chars) (content : Chars) :
    Except Unit (Chars × Bool) :=
  match update_specifiers fs base content with
  | .error e => .error e
  | .ok (n, ch) => .ok ((if ch then n else content), ch)

/-- A matcher is well formed when a successful match decomposes its input
into the three captured groups followed by the remaining text, with a
nonempty prefix group. The three matchers modeling the source patterns are
proved well formed below; the property justifies running the scans with
fuel equal to the text length. -/
def MatcherOk (m : Chars → Option (Chars × Chars × Chars × Chars)) : Prop :=
  ∀ s p sp qc rest, m s = some (p, sp, qc, rest) →
    s = p ++ sp ++ qc ++ rest ∧ p ≠ []

/-- A substitution happens somewhere during one regex.sub pass over the
text: either the pattern matches at the current position and the resolver
returns a truthy string different from the captured specifier, or a
substitution happens in the text after a non-substituting match, or after
advancing over an unmatched character. This mirrors exactly the condition
under which the _replace callback of the source sets the changed flag. -/
inductive SubstOccurs (m : Chars → Option (Chars × Chars × Chars × Chars))
    (fs : FS) (base : List Chars) : Chars → Prop where
  | here {s p sp qc rest ns} : m s = some (p, sp, qc, rest) →
      resolve_relative_spec fs base sp = .ok (some ns) → ns ≠ [] → ns ≠ sp →
      SubstOccurs m fs base s
  | inRest {s p sp qc rest} : m s = some (p, sp, qc, rest) →
      SubstOccurs m fs base rest → SubstOccurs m fs base s
  | inTail {c cs} : m (c :: cs) = none → SubstOccurs m fs base cs →
      SubstOccurs m fs base (c :: cs)

/-
Concrete inputs used by the claim witnesses and counterexamples.
-/

/-- A filesystem with the single file bar.ts in the root directory. -/
def fsBar : FS := ⟨[["bar.ts".toList]], []⟩

def specBar : Chars := "./bar".toList

/-- An empty filesystem. -/
def fsEmpty : FS := ⟨[], []⟩

/-- A filesystem with a directory utils containing utils/index.ts. -/
def fsUtils : FS := ⟨[["utils".toList, "index.ts".toList]], [["utils".toList]]⟩

def specUtils : Chars := "./utils".toList

/-- A filesystem with the single file a.b.ts in the root directory. -/
def fsC1 : FS := ⟨[["a.b.ts".toList]], []⟩

/-- A specifier whose final path segment is empty (hence has no dot) but
whose resolved path has the dotted final name a.b. -/
def specC1 : Chars := "./a.b/".toList

/-- A filesystem where both the direct file bar.ts and the directory bar
with an index file bar/index.ts exist. -/
def fsC3 : FS := ⟨[["bar.ts".toList], ["bar".toList, "index.ts".toList]], [["bar".toList]]⟩

/-- A filesystem for the rewriter idempotence counterexample: the files
named a-space-from-space.ts (sic) and c.ts exist in the root directory. -/
def fsC4 : FS := ⟨[["a from .ts".toList], ["c.ts".toList]], []⟩

/-- A text on which the first rewriter pass changes which text the static
scan can match on a second pass: the dynamic-import specifier contains the
characters from-space-quote, and rewriting it breaks the static context
that had shadowed the trailing quoted region. -/
def t0C4 : Chars := "import(\"./a from \"./b from \"./c\")".toList

/-- The output of the first rewriter pass on t0C4. -/
def t1C4 : Chars := "import(\"./a from .js\"./b from \"./c\")".toList

/-- The output of the second rewriter pass on t1C4: it differs again. -/
def t2C4 : Chars := "import(\"./a from .js\"./b from \"./c.js\")".toList

/-- A specifier that resolves to the filesystem root: the resolved path has
an empty name, and Path.with_suffix raises ValueError on it. -/
def specRoot : Chars := "/x/../".toList

def textRoot : Chars := "from \"/x/../\"".toList

def specCss : Chars := "./styles.css".toList

def specMissing : Chars := "./missing".toList

/-- An export-from statement: its specifier occurrence is matched both by
the static scan and by the export scan. -/
def textExp : Chars := "export { a } from \"./bar\"".toList

def textExpOut : Chars := "export { a } from \"./bar.js\"".toList

/-- A specifier that the patterns capture although it does not begin with
any of the three relative markers. -/
def fsFoo : FS := ⟨[[".foo".toList, "bar.ts".toList]], []⟩

def textFoo : Chars := "from \".foo/bar\"".toList

def textFooOut : Chars := "from \".foo/bar.js\"".toList

def specFoo : Chars := ".foo/bar".toList

/-- A text containing one static-import site and one dynamic-import site,
used to witness that the two shapes match at distinct specifier
positions. -/
def tSD : Chars := "from \"./a\" import(\"./b\")".toList

def tSD2 : Chars := "import(\"./b\")".toList

def bSD : Chars := "from \"./a\" ".toList

def textBar : Chars := "import { a } from \"./bar\";".toList

def textBarOut : Chars := "import { a } from \"./bar.js\";".toList

/-
Lemmas about the matchers.
-/

theorem stripToken_eq : ∀ (t s r : Chars), stripToken t s = some r → s = t ++ r := by
  intro t
  induction t with
  | nil =>
    intro s r h
    simp [stripToken] at h
    simp [h]
  | cons c cs ih =>
    intro s r h
    cases s with
    | nil => simp [stripToken] at h
    | cons d ds =>
      simp only [stripToken] at h
      split at h
      · next heq =>
        subst heq
        have := ih ds r h
        simp [this]
      · exact absurd h (by simp)

theorem specAndClose_eq (s sp qc rest : Chars)
    (h : specAndClose s = some (sp, qc, rest)) :
    s = sp ++ qc ++ rest ∧ sp ≠ [] ∧ qc ≠ [] ∧
      (sp.head? = some '.' ∨ sp.head? = some '/') := by
  unfold specAndClose at h
  rcases htw : s.takeWhile (fun c => !isQuote c) with _ | ⟨c, cs⟩ <;>
    simp only [htw] at h
  · simp at h
  · split at h
    · rcases hdw : s.dropWhile (fun c => !isQuote c) with _ | ⟨q2, r2⟩ <;>
        simp only [hdw] at h
      · simp at h
      · simp only [Option.some.injEq, Prod.mk.injEq] at h
        obtain ⟨h1, h2, h3⟩ := h
        subst h1; subst h2; subst h3
        refine ⟨?_, by simp, by simp, ?_⟩
        · have hsd := List.takeWhile_append_dropWhile (fun c => !isQuote c) s
          rw [htw, hdw] at hsd
          simp [← hsd]
        · next hc =>
          simp only [Bool.or_eq_true, decide_eq_true_eq] at hc
          rcases hc with hc | hc <;> simp [hc]
    · simp at h

theorem quoteSpec_eq (pre s p sp qc rest : Chars)
    (h : quoteSpec pre s = some (p, sp, qc, rest)) :
    ∃ q, p = pre ++ [q] ∧ isQuote q = true ∧ s = q :: (sp ++ qc ++ rest) ∧
      sp ≠ [] ∧ (sp.head? = some '.' ∨ sp.head? = some '/') := by
  rcases s with _ | ⟨q, s3⟩
  · simp [quoteSpec] at h
  · simp only [quoteSpec] at h
    split at h
    · next hq =>
      rcases hsc : specAndClose s3 with _ | ⟨sp0, qc0, rest0⟩ <;>
        simp only [hsc] at h
      · simp at h
      · simp only [Option.some.injEq, Prod.mk.injEq] at h
        obtain ⟨hp, hsp, hqc, hrest⟩ := h
        subst hp; subst hsp; subst hqc; subst hrest
        obtain ⟨hs3, hne, _, hhead⟩ := specAndClose_eq _ _ _ _ hsc
        exact ⟨q, rfl, hq, by rw [hs3], hne, hhead⟩
    · simp at h

theorem matchStatic_eq (s p sp qc rest : Chars)
    (h : matchStatic s = some (p, sp, qc, rest)) :
    s = p ++ sp ++ qc ++ rest ∧
      (∃ ws q, p = "from".toList ++ ws ++ [q] ∧ ws ≠ [] ∧
        (∀ c ∈ ws, pyIsSpace c = true) ∧ isQuote q = true) ∧
      sp ≠ [] ∧ (sp.head? = some '.' ∨ sp.head? = some '/') := by
  unfold matchStatic at h
  rcases hst : stripToken ("from".toList) s with _ | s1 <;> simp only [hst] at h
  · simp at h
  · have hs1 : s = "from".toList ++ s1 := stripToken_eq _ _ _ hst
    rcases hE : (s1.takeWhile pyIsSpace).isEmpty <;> simp only [hE] at h
    · obtain ⟨q, hp, hq, hdw, hne, hhead⟩ := quoteSpec_eq _ _ _ _ _ _ h
      have hsd := List.takeWhile_append_dropWhile pyIsSpace s1
      rw [hdw] at hsd
      refine ⟨?_, ⟨s1.takeWhile pyIsSpace, q, hp, List.isEmpty_eq_false.mp hE, ?_, hq⟩,
        hne, hhead⟩
      · rw [hs1, ← hsd, hp]
        simp
      · intro c hc
        exact List.mem_takeWhile_imp hc
    · simp at h

theorem matchDynamic_eq (s p sp qc rest : Chars)
    (h : matchDynamic s = some (p, sp, qc, rest)) :
    s = p ++ sp ++ qc ++ rest ∧
      (∃ ws q, p = "import(".toList ++ ws ++ [q] ∧
        (∀ c ∈ ws, pyIsSpace c = true) ∧ isQuote q = true) ∧
      sp ≠ [] ∧ (sp.head? = some '.' ∨ sp.head? = some '/') := by
  unfold matchDynamic at h
  rcases hst : stripToken ("import(".toList) s with _ | s1 <;> simp only [hst] at h
  · simp at h
  · have hs1 : s = "import(".toList ++ s1 := stripToken_eq _ _ _ hst
    obtain ⟨q, hp, hq, hdw, hne, hhead⟩ := quoteSpec_eq _ _ _ _ _ _ h
    have hsd := List.takeWhile_append_dropWhile pyIsSpace s1
    rw [hdw] at hsd
    refine ⟨?_, ⟨s1.takeWhile pyIsSpace, q, hp, ?_, hq⟩, hne, hhead⟩
    · rw [hs1, ← hsd, hp]
      simp
    · intro c hc
      exact List.mem_takeWhile_imp hc

theorem searchFrom_eq : ∀ (s consumed p sp qc rest : Chars),
    searchFrom consumed s = some (p, sp, qc, rest) →
    consumed ++ s = p ++ sp ++ qc ++ rest ∧ (∃ t, p = consumed ++ t) ∧
      sp ≠ [] ∧ (sp.head? = some '.' ∨ sp.head? = some '/') := by
  intro s
  induction s with
  | nil =>
    intro consumed p sp qc rest h
    have hms : matchStatic ([] : Chars) = none := rfl
    simp [searchFrom, hms] at h
  | cons c cs ih =>
    intro consumed p sp qc rest h
    rcases hms : matchStatic (c :: cs) with _ | ⟨p0, sp0, qc0, rest0⟩ <;>
      simp only [searchFrom, hms] at h
    · split at h
      · simp at h
      · obtain ⟨h1, h2, h3, h4⟩ := ih (consumed ++ [c]) p sp qc rest h
        refine ⟨?_, ?_, h3, h4⟩
        · rw [← h1]; simp
        · obtain ⟨t, ht⟩ := h2
          exact ⟨[c] ++ t, by simp [ht]⟩
    · simp only [Option.some.injEq, Prod.mk.injEq] at h
      obtain ⟨hp, hsp, hqc, hrest⟩ := h
      subst hp; subst hsp; subst hqc; subst hrest
      obtain ⟨hdec, _, hne, hhead⟩ := matchStatic_eq _ _ _ _ _ hms
      refine ⟨?_, ⟨p0, rfl⟩, hne, hhead⟩
      rw [hdec]
      simp

theorem matchExport_eq (s p sp qc rest : Chars)
    (h : matchExport s = some (p, sp, qc, rest)) :
    s = p ++ sp ++ qc ++ rest ∧ p ≠ [] ∧
      sp ≠ [] ∧ (sp.head? = some '.' ∨ sp.head? = some '/') := by
  unfold matchExport at h
  rcases hst : stripToken ("export".toList) s with _ | (_ | ⟨c, cs⟩) <;>
    simp only [hst] at h
  · simp at h
  · simp at h
  · have hs1 : s = "export".toList ++ (c :: cs) := stripToken_eq _ _ _ hst
    split at h
    · obtain ⟨h1, h2, h3, h4⟩ := searchFrom_eq _ _ _ _ _ _ h
      refine ⟨?_, ?_, h3, h4⟩
      · rw [hs1, ← h1]
        simp
      · obtain ⟨t, ht⟩ := h2
        rw [ht]
        exact List.append_ne_nil_of_left_ne_nil (by simp) t
    · simp at h

theorem matchStatic_ok : MatcherOk matchStatic := by
  intro s p sp qc rest h
  obtain ⟨h1, ⟨ws, q, hp, _, _, _⟩, _, _⟩ := matchStatic_eq _ _ _ _ _ h
  exact ⟨h1, by rw [hp]; simp⟩

theorem matchDynamic_ok : MatcherOk matchDynamic := by
  intro s p sp qc rest h
  obtain ⟨h1, ⟨ws, q, hp, _, _⟩, _, _⟩ := matchDynamic_eq _ _ _ _ _ h
  exact ⟨h1, by rw [hp]; simp⟩

theorem matchExport_ok : MatcherOk matchExport := by
  intro s p sp qc rest h
  obtain ⟨h1, h2, _, _⟩ := matchExport_eq _ _ _ _ _ h
  exact ⟨h1, h2⟩

theorem MatcherOk.rest_lt {m : Chars → Option (Chars × Chars × Chars × Chars)}
    (hm : MatcherOk m) {s p sp qc rest : Chars}
    (h : m s = some (p, sp, qc, rest)) : rest.length < s.length := by
  obtain ⟨h1, h2⟩ := hm s p sp qc rest h
  rw [h1]
  rcases p with _ | ⟨x, xs⟩
  · exact absurd rfl h2
  · simp
    omega

/-
Lemmas about one regex.sub pass.
-/

theorem SubstOccurs_nil_false {m : Chars → Option (Chars × Chars × Chars × Chars)}
    {fs : FS} {base : List Chars} (hm : MatcherOk m) :
    ¬ SubstOccurs m fs base [] := by
  intro hS
  cases hS with
  | here h1 _ _ _ =>
    obtain ⟨hd, hp⟩ := hm _ _ _ _ _ h1
    simp at hd
    exact hp hd.1
  | inRest h1 _ =>
    obtain ⟨hd, hp⟩ := hm _ _ _ _ _ h1
    simp at hd
    exact hp hd.1

theorem subMF_nochange (m : Chars → Option (Chars × Chars × Chars × Chars))
    (fs : FS) (base : List Chars) (hm : MatcherOk m) :
    ∀ fuel s t, s.length ≤ fuel → subMF m fs base fuel s = .ok (t, false) →
      t = s := by
  intro fuel
  induction fuel with
  | zero =>
    intro s t hle h
    cases s with
    | nil =>
      simp [subMF] at h
      exact h
    | cons c cs => simp at hle
  | succ n ih =>
    intro s t hle h
    cases s with
    | nil =>
      simp [subMF] at h
      exact h
    | cons c cs =>
      simp only [subMF] at h
      rcases hmm : m (c :: cs) with _ | ⟨p, sp, qc, rest⟩ <;> simp only [hmm] at h
      · rcases hrec : subMF m fs base n cs with e | ⟨t2, ch2⟩ <;>
          simp only [hrec] at h
        · simp at h
        · simp only [Except.ok.injEq, Prod.mk.injEq] at h
          obtain ⟨ht, hch⟩ := h
          subst hch
          have hlen : cs.length ≤ n := by
            simp only [List.length_cons] at hle
            omega
          rw [← ht, ih cs t2 hlen hrec]
      · rcases hres : resolve_relative_spec fs base sp with e | res <;>
          simp only [hres] at h
        · simp at h
        · rcases hrec : subMF m fs base n rest with e | ⟨t2, ch2⟩ <;>
            simp only [hrec] at h
          · simp at h
          · obtain ⟨hdec, hpne⟩ := hm _ _ _ _ _ hmm
            have hlen : rest.length ≤ n := by
              have h1 := hm.rest_lt hmm
              simp only [List.length_cons] at h1 hle
              omega
            rcases res with _ | ns
            · simp only [shouldSubst] at h
              rw [if_neg (by decide)] at h
              simp only [Except.ok.injEq, Prod.mk.injEq] at h
              obtain ⟨ht, hch⟩ := h
              subst hch
              rw [← ht, ih rest t2 hlen hrec]
              exact hdec.symm
            · simp only [shouldSubst] at h
              split at h
              · simp at h
              · simp only [Except.ok.injEq, Prod.mk.injEq] at h
                obtain ⟨ht, hch⟩ := h
                subst hch
                rw [← ht, ih rest t2 hlen hrec]
                exact hdec.symm

theorem subMF_flag_iff (m : Chars → Option (Chars × Chars × Chars × Chars))
    (fs : FS) (base : List Chars) (hm : MatcherOk m) :
    ∀ fuel s t ch, s.length ≤ fuel → subMF m fs base fuel s = .ok (t, ch) →
      (ch = true ↔ SubstOccurs m fs base s) := by
  intro fuel
  induction fuel with
  | zero =>
    intro s t ch hle h
    cases s with
    | nil =>
      simp [subMF] at h
      rw [h.2]
      simp
      exact SubstOccurs_nil_false hm
    | cons c cs => simp at hle
  | succ n ih =>
    intro s t ch hle h
    cases s with
    | nil =>
      simp [subMF] at h
      rw [h.2]
      simp
      exact SubstOccurs_nil_false hm
    | cons c cs =>
      simp only [subMF] at h
      rcases hmm : m (c :: cs) with _ | ⟨p, sp, qc, rest⟩ <;> simp only [hmm] at h
      · rcases hrec : subMF m fs base n cs with e | ⟨t2, ch2⟩ <;>
          simp only [hrec] at h
        · simp at h
        · simp only [Except.ok.injEq, Prod.mk.injEq] at h
          obtain ⟨-, hch⟩ := h
          subst hch
          have hlen : cs.length ≤ n := by
            simp only [List.length_cons] at hle
            omega
          have hiff := ih cs t2 ch2 hlen hrec
          constructor
          · intro hch2
            exact .inTail hmm (hiff.mp hch2)
          · intro hS
            cases hS with
            | here h1 _ _ _ => rw [hmm] at h1; simp at h1
            | inRest h1 _ => rw [hmm] at h1; simp at h1
            | inTail _ hS2 => exact hiff.mpr hS2
      · rcases hres : resolve_relative_spec fs base sp with e | res <;>
          simp only [hres] at h
        · simp at h
        · rcases hrec : subMF m fs base n rest with e | ⟨t2, ch2⟩ <;>
            simp only [hrec] at h
          · simp at h
          · have hlen : rest.length ≤ n := by
              have h1 := hm.rest_lt hmm
              simp only [List.length_cons] at h1 hle
              omega
            have hiff := ih rest t2 ch2 hlen hrec
            rcases res with _ | ns
            · simp only [shouldSubst] at h
              rw [if_neg (by decide)] at h
              simp only [Except.ok.injEq, Prod.mk.injEq] at h
              obtain ⟨-, hch⟩ := h
              subst hch
              constructor
              · intro hch2
                exact .inRest hmm (hiff.mp hch2)
              · intro hS
                cases hS with
                | here h1 h2 _ _ =>
                  rw [hmm] at h1
                  simp only [Option.some.injEq, Prod.mk.injEq] at h1
                  obtain ⟨-, hsp, -, -⟩ := h1
                  rw [← hsp, hres] at h2
                  simp at h2
                | inRest h1 hS2 =>
                  rw [hmm] at h1
                  simp only [Option.some.injEq, Prod.mk.injEq] at h1
                  obtain ⟨-, -, -, hr⟩ := h1
                  exact hiff.mpr (hr ▸ hS2)
                | inTail h1 _ => rw [hmm] at h1; simp at h1
            · simp only [shouldSubst] at h
              split at h
              · next hcond =>
                simp only [Bool.and_eq_true, Bool.not_eq_true', decide_eq_true_eq]
                  at hcond
                obtain ⟨hemp, hnesp⟩ := hcond
                simp only [Except.ok.injEq, Prod.mk.injEq] at h
                obtain ⟨-, hch⟩ := h
                subst hch
                exact iff_of_true rfl
                  (.here hmm hres (List.isEmpty_eq_false.mp hemp) hnesp)
              · next hcond =>
                simp only [Bool.and_eq_true, Bool.not_eq_true', decide_eq_true_eq,
                  not_and] at hcond
                simp only [Except.ok.injEq, Prod.mk.injEq] at h
                obtain ⟨-, hch⟩ := h
                subst hch
                constructor
                · intro hch2
                  exact .inRest hmm (hiff.mp hch2)
                · intro hS
                  cases hS with
                  | here h1 h2 h3 h4 =>
                    rw [hmm] at h1
                    simp only [Option.some.injEq, Prod.mk.injEq] at h1
                    obtain ⟨-, hsp, -, -⟩ := h1
                    rw [← hsp, hres] at h2
                    simp only [Except.ok.injEq, Option.some.injEq] at h2
                    subst h2
                    rw [← hsp] at h4
                    exact absurd h4 (hcond (List.isEmpty_eq_false.mpr h3))
                  | inRest h1 hS2 =>
                    rw [hmm] at h1
                    simp only [Option.some.injEq, Prod.mk.injEq] at h1
                    obtain ⟨-, -, -, hr⟩ := h1
                    exact hiff.mpr (hr ▸ hS2)
                  | inTail h1 _ => rw [hmm] at h1; simp at h1

theorem subScan_nochange {m : Chars → Option (Chars × Chars × Chars × Chars)}
    {fs : FS} {base : List Chars} {s t : Chars} (hm : MatcherOk m)
    (h : subScan m fs base s = .ok (t, false)) : t = s :=
  subMF_nochange m fs base hm s.length s t le_rfl h

theorem subScan_flag_iff {m : Chars → Option (Chars × Chars × Chars × Chars)}
    {fs : FS} {base : List Chars} {s t : Chars} {ch : Bool} (hm : MatcherOk m)
    (h : subScan m fs base s = .ok (t, ch)) :
    ch = true ↔ SubstOccurs m fs base s :=
  subMF_flag_iff m fs base hm s.length s t ch le_rfl h

/-
Lemmas about the resolver.
-/

theorem splitSlash_ne_nil : ∀ (s : Chars), splitSlash s ≠ [] := by
  intro s
  induction s with
  | nil => simp [splitSlash]
  | cons c cs ih =>
    simp only [splitSlash]
    split
    · simp
    · rcases h : splitSlash cs with _ | ⟨t, ts⟩ <;> simp

theorem splitSlash_no_slash : ∀ (s : Chars), (∀ c ∈ s, ¬(c = '/')) →
    splitSlash s = [s] := by
  intro s
  induction s with
  | nil => intro _; rfl
  | cons c cs ih =>
    intro hns
    have hc : ¬(c = '/') := hns c (by simp)
    simp only [splitSlash, if_neg hc]
    rw [ih (fun d hd => hns d (List.mem_cons_of_mem c hd))]

theorem hasDot_lastSeg_cons (c : Char) (cs : Chars)
    (h : hasDot (lastSeg cs) = true) : hasDot (lastSeg (c :: cs)) = true := by
  unfold lastSeg at h ⊢
  simp only [splitSlash]
  split
  · rw [List.getLastD_cons]
    exact h
  · rcases hsp : splitSlash cs with _ | ⟨t, ts⟩
    · exact absurd hsp (splitSlash_ne_nil cs)
    · rw [hsp] at h
      rcases ts with _ | ⟨u, us⟩
      · simp only [List.getLastD_cons, List.getLastD_nil] at h ⊢
        have he : hasDot (c :: t) = (decide (c = '.') || hasDot t) := by
          simp [hasDot]
        rw [he, h, Bool.or_true]
      · simp only [List.getLastD_cons] at h ⊢
        exact h

theorem hasDot_lastSeg_append (t : Chars) (hns : ∀ c ∈ t, ¬(c = '/'))
    (hd : hasDot t = true) : ∀ u : Chars, hasDot (lastSeg (u ++ t)) = true := by
  intro u
  induction u with
  | nil =>
    simp only [List.nil_append]
    unfold lastSeg
    rw [splitSlash_no_slash t hns]
    simpa [List.getLastD] using hd
  | cons c u' ih => exact hasDot_lastSeg_cons c (u' ++ t) ih

theorem hasDot_lastSeg_endsWith (t s : Chars) (hns : ∀ c ∈ t, ¬(c = '/'))
    (hd : hasDot t = true) (h : endsWithS t s = true) :
    hasDot (lastSeg s) = true := by
  obtain ⟨u, hu⟩ := List.isSuffixOf_iff_suffix.mp h
  rw [← hu]
  exact hasDot_lastSeg_append t hns hd u

theorem hasRuntimeExt_lastSeg (spec : Chars) (h : hasRuntimeExt spec = true) :
    hasDot (lastSeg spec) = true := by
  unfold hasRuntimeExt at h
  simp only [Bool.or_eq_true] at h
  rcases h with (h | h) | h
  · exact hasDot_lastSeg_endsWith _ _ (by decide) (by decide) h
  · exact hasDot_lastSeg_endsWith _ _ (by decide) (by decide) h
  · exact hasDot_lastSeg_endsWith _ _ (by decide) (by decide) h

theorem endsWithS_append (x suf : Chars) : endsWithS suf (x ++ suf) = true := by
  unfold endsWithS
  exact List.isSuffixOf_iff_suffix.mpr (List.suffix_append x suf)

theorem pySuffix_no_dot (name : Chars) (h : hasDot name = false) :
    pySuffix name = [] := by
  unfold pySuffix
  have hn : name.reverse.findIdx? (fun c => c = '.') = none := by
    rw [List.findIdx?_eq_none_iff]
    intro x hx
    cases hb : (decide (x = '.')) with
    | false => rfl
    | true =>
      exfalso
      have hx' := List.mem_reverse.mp hx
      have hdot : hasDot name = true := by
        unfold hasDot
        exact List.any_eq_true.mpr ⟨x, hx', hb⟩
      simp [hdot] at h
  rw [hn]

theorem pyWithSuffixName_no_dot (name ext : Chars) (h : hasDot name = false) :
    pyWithSuffixName name ext = name ++ ext := by
  unfold pyWithSuffixName
  rw [pySuffix_no_dot name h]
  simp

theorem probeDirect_eq_any (fs : FS) (target : List Chars) (name : Chars)
    (hl : target.getLast? = some name) (hnd : hasDot name = false) :
    ∀ exts, probeDirect fs target exts =
      .ok (exts.any (fun e => fsExists fs (target.dropLast ++ [name ++ e]))) := by
  intro exts
  induction exts with
  | nil => rfl
  | cons ext rest ih =>
    simp only [probeDirect]
    have hws : pyWithSuffix target ext =
        some (target.dropLast ++ [name ++ ext]) := by
      unfold pyWithSuffix
      simp only [hl, pyWithSuffixName_no_dot name ext hnd]
    simp only [hws]
    rcases hfe : fsExists fs (target.dropLast ++ [name ++ ext])
    · rw [if_neg (by simp), ih]
      simp only [List.any_cons, hfe, Bool.false_or]
    · rw [if_pos rfl]
      simp only [List.any_cons, hfe, Bool.true_or]

theorem probeIndex_eq_any (fs : FS) (target : List Chars) :
    ∀ exts, probeIndex fs target exts =
      exts.any (fun e => fsExists fs (target ++ ["index".toList ++ e])) := by
  intro exts
  induction exts with
  | nil => rfl
  | cons ext rest ih =>
    simp only [probeIndex]
    rcases hfe : fsExists fs (target ++ ["index".toList ++ ext])
    · rw [if_neg (by simp), ih]
      simp only [List.any_cons, hfe, Bool.false_or]
    · rw [if_pos rfl]
      simp only [List.any_cons, hfe, Bool.true_or]

theorem resolve_guard1 (fs : FS) (base : List Chars) (spec : Chars)
    (h : hasRuntimeExt spec = true) :
    resolve_relative_spec fs base spec = .ok none := by
  unfold resolve_relative_spec
  rw [if_pos h]

theorem resolve_guard2 (fs : FS) (base : List Chars) (spec : Chars)
    (h : hasDot (lastSeg spec) = true) :
    resolve_relative_spec fs base spec = .ok none := by
  unfold resolve_relative_spec
  rcases hrt : hasRuntimeExt spec
  · rw [if_neg (by simp), if_pos h]
  · simp

theorem resolve_eq_probe (fs : FS) (base : List Chars) (spec : Chars)
    (h1 : hasRuntimeExt spec = false) (h2 : hasDot (lastSeg spec) = false) :
    resolve_relative_spec fs base spec =
      match probeDirect fs (pyJoin base spec) (TS_EXTENSIONS ++ JS_EXTENSIONS) with
      | .error e => .error e
      | .ok true => .ok (some (spec ++ ".js".toList))
      | .ok false =>
        if fsIsDir fs (pyJoin base spec) then
          if probeIndex fs (pyJoin base spec) (TS_EXTENSIONS ++ JS_EXTENSIONS) then
            .ok (some (rstripSlash spec ++ "/index.js".toList))
          else .ok none
        else .ok none := by
  unfold resolve_relative_spec
  rw [if_neg (by simp [h1]), if_neg (by simp [h2])]

theorem resolve_some_ends_js (fs : FS) (base : List Chars) (spec ns : Chars)
    (h : resolve_relative_spec fs base spec = .ok (some ns)) :
    endsWithS (".js".toList) ns = true := by
  unfold resolve_relative_spec at h
  split at h
  · simp at h
  · split at h
    · simp at h
    · rcases hp : probeDirect fs (pyJoin base spec) (TS_EXTENSIONS ++ JS_EXTENSIONS)
        with e | b
      · simp only [hp] at h
        simp at h
      · rcases b
        · simp only [hp] at h
          split at h
          · split at h
            · simp only [Except.ok.injEq, Option.some.injEq] at h
              rw [← h]
              rw [show ("/index.js".toList : Chars) = "/index".toList ++ ".js".toList
                from rfl, ← List.append_assoc]
              exact endsWithS_append _ _
            · simp at h
          · simp at h
        · simp only [hp] at h
          simp only [Except.ok.injEq, Option.some.injEq] at h
          rw [← h]
          exact endsWithS_append _ _

theorem resolve_none_of_runtime (fs : FS) (base : List Chars) (spec : Chars)
    (h : endsWithS (".js".toList) spec = true) :
    resolve_relative_spec fs base spec = .ok none := by
  apply resolve_guard1
  unfold hasRuntimeExt
  simp only [Bool.or_eq_true]
  exact Or.inl (Or.inl h)

/-- Alignment of two whitespace runs ending at the same position: when two
decompositions of one text each consist of a run of whitespace characters
followed by a non-whitespace character, the two non-whitespace characters
coincide. -/
theorem ws_align : ∀ (w1 w2 : Chars) (c1 c2 : Char) (u1 u2 : Chars),
    (∀ c ∈ w1, pyIsSpace c = true) → (∀ c ∈ w2, pyIsSpace c = true) →
    pyIsSpace c1 = false → pyIsSpace c2 = false →
    w1 ++ c1 :: u1 = w2 ++ c2 :: u2 → c1 = c2 := by
  intro w1
  induction w1 with
  | nil =>
    intro w2 c1 c2 u1 u2 _ hw2 hc1 hc2 heq
    rcases w2 with _ | ⟨d, w2'⟩
    · simp at heq
      exact heq.1
    · simp at heq
      obtain ⟨h1, -⟩ := heq
      have hd := hw2 d (by simp)
      rw [← h1] at hd
      rw [hd] at hc1
      cases hc1
  | cons e w1' ih =>
    intro w2 c1 c2 u1 u2 hw1 hw2 hc1 hc2 heq
    rcases w2 with _ | ⟨d, w2'⟩
    · simp at heq
      obtain ⟨h1, -⟩ := heq
      have he := hw1 e (by simp)
      rw [h1] at he
      rw [he] at hc2
      cases hc2
    · simp at heq
      obtain ⟨-, h2⟩ := heq
      exact ih w2' c1 c2 u1 u2 (fun c hc => hw1 c (by simp [hc]))
        (fun c hc => hw2 c (by simp [hc])) hc1 hc2 h2

/-
The ten claims.
-/

/-- Claim C1, amended: for a relative specifier whose final path segment
contains no dot, when the resolved target path has a final name component
itself containing no dot and appending some probed extension to that name
names an existing file, the resolver returns the specifier with the literal
suffix .js appended, regardless of which probed extension matched. The
restriction on the final name component is forced by the counterexample:
the code builds candidates with Path.with_suffix, which replaces a dotted
suffix of the resolved name instead of appending to it. -/
theorem C1_theorem (fs : FS) (base : List Chars) (spec name : Chars)
    (hseg : hasDot (lastSeg spec) = false)
    (hname : (pyJoin base spec).getLast? = some name)
    (hnd : hasDot name = false)
    (hext : ∃ ext ∈ TS_EXTENSIONS ++ JS_EXTENSIONS,
      ((pyJoin base spec).dropLast ++ [name ++ ext]) ∈ fs.files) :
    resolve_relative_spec fs base spec = .ok (some (spec ++ ".js".toList)) := by
  have h1 : hasRuntimeExt spec = false := by
    rcases hb : hasRuntimeExt spec
    · rfl
    · exact absurd (hasRuntimeExt_lastSeg spec hb) (by simp [hseg])
  rw [resolve_eq_probe fs base spec h1 hseg]
  rw [probeDirect_eq_any fs (pyJoin base spec) name hname hnd]
  have hany : ((TS_EXTENSIONS ++ JS_EXTENSIONS).any
      (fun e => fsExists fs ((pyJoin base spec).dropLast ++ [name ++ e]))) = true := by
    rw [List.any_eq_true]
    obtain ⟨ext, hmem, hfile⟩ := hext
    refine ⟨ext, hmem, ?_⟩
    unfold fsExists
    simp only [Bool.or_eq_true]
    exact Or.inl (List.elem_iff.mpr hfile)
  rw [hany]

/-- Witness for C1_theorem at a concrete input: file bar.ts exists and the
specifier ./bar is rewritten to ./bar.js. -/
theorem C1_witness :
    hasDot (lastSeg specBar) = false ∧
      resolve_relative_spec fsBar [] specBar = .ok (some (specBar ++ ".js".toList)) :=
  ⟨by decide, C1_theorem fsBar [] specBar ("bar".toList) (by decide) (by rfl)
    (by decide) ⟨".ts".toList, by decide, by decide⟩⟩

/-- Counterexample to C1 as stated: the specifier ./a.b/ has an empty (hence
dotless) final path segment and resolves to the path a.b; appending the
probed extension .ts to that path names the existing file a.b.ts, yet the
resolver returns no change (with_suffix probes a.ts, a.tsx, a.mts, a.js and
a.mjs instead, replacing the .b suffix of the resolved name). -/
theorem C1_counterexample :
    hasDot (lastSeg specC1) = false ∧
      pyJoin [] specC1 = ["a.b".toList] ∧
      ("a.b".toList ++ ".ts".toList) = "a.b.ts".toList ∧
      [("a.b.ts".toList : Chars)] ∈ fsC1.files ∧
      resolve_relative_spec fsC1 [] specC1 = .ok none :=
  ⟨by decide, by rfl, by rfl, by decide, by rfl⟩

/-- Claim C2, confirmed: for a relative specifier whose final path segment
contains no dot, when no direct-file probe matches and the resolved path is
an existing directory containing an index file with some probed extension,
the resolver returns the specifier with trailing slashes stripped followed
by the literal /index.js. -/
theorem C2_theorem (fs : FS) (base : List Chars) (spec : Chars)
    (hseg : hasDot (lastSeg spec) = false)
    (hprobe : probeDirect fs (pyJoin base spec) (TS_EXTENSIONS ++ JS_EXTENSIONS) =
      .ok false)
    (hdir : fsIsDir fs (pyJoin base spec) = true)
    (hidx : ∃ ext ∈ TS_EXTENSIONS ++ JS_EXTENSIONS,
      ((pyJoin base spec) ++ ["index".toList ++ ext]) ∈ fs.files) :
    resolve_relative_spec fs base spec =
      .ok (some (rstripSlash spec ++ "/index.js".toList)) := by
  have h1 : hasRuntimeExt spec = false := by
    rcases hb : hasRuntimeExt spec
    · rfl
    · exact absurd (hasRuntimeExt_lastSeg spec hb) (by simp [hseg])
  rw [resolve_eq_probe fs base spec h1 hseg]
  simp only [hprobe]
  have hpi : probeIndex fs (pyJoin base spec) (TS_EXTENSIONS ++ JS_EXTENSIONS) = true := by
    rw [probeIndex_eq_any, List.any_eq_true]
    obtain ⟨ext, hmem, hfile⟩ := hidx
    refine ⟨ext, hmem, ?_⟩
    unfold fsExists
    simp only [Bool.or_eq_true]
    exact Or.inl (List.elem_iff.mpr hfile)
  rw [if_pos hdir, if_pos hpi]

/-- Witness for C2_theorem at a concrete input: utils is a directory with
utils/index.ts and no direct file matches, so ./utils is rewritten to
./utils/index.js. -/
theorem C2_witness :
    fsIsDir fsUtils (pyJoin [] specUtils) = true ∧
      resolve_relative_spec fsUtils [] specUtils =
        .ok (some (rstripSlash specUtils ++ "/index.js".toList)) :=
  ⟨by rfl, C2_theorem fsUtils [] specUtils (by decide) (by rfl) (by rfl)
    ⟨".ts".toList, by decide, by decide⟩⟩

/-- Claim C3, amended: a specifier is rewritten exactly when both extension
guards pass and at least one of the direct-file probe and the
directory-with-index probe succeeds (the original claim said exactly one,
which fails when both a same-named file and a same-named directory with an
index file exist); when the direct probe succeeds the direct-file form,
specifier plus .js, takes precedence. -/
theorem C3_theorem (fs : FS) (base : List Chars) (spec : Chars) :
    ((∃ ns, resolve_relative_spec fs base spec = .ok (some ns)) ↔
      (hasRuntimeExt spec = false ∧ hasDot (lastSeg spec) = false ∧
        (probeDirect fs (pyJoin base spec) (TS_EXTENSIONS ++ JS_EXTENSIONS) = .ok true ∨
          (probeDirect fs (pyJoin base spec) (TS_EXTENSIONS ++ JS_EXTENSIONS) = .ok false ∧
            fsIsDir fs (pyJoin base spec) = true ∧
            probeIndex fs (pyJoin base spec) (TS_EXTENSIONS ++ JS_EXTENSIONS) = true)))) ∧
    (hasRuntimeExt spec = false → hasDot (lastSeg spec) = false →
      probeDirect fs (pyJoin base spec) (TS_EXTENSIONS ++ JS_EXTENSIONS) = .ok true →
      resolve_relative_spec fs base spec = .ok (some (spec ++ ".js".toList))) := by
  constructor
  · constructor
    · rintro ⟨ns, hns⟩
      rcases hrt : hasRuntimeExt spec
      · rcases hdt : hasDot (lastSeg spec)
        · refine ⟨rfl, rfl, ?_⟩
          rw [resolve_eq_probe fs base spec hrt hdt] at hns
          split at hns
          · simp at hns
          · next heq => exact Or.inl heq
          · next heq =>
            split at hns
            · next hd =>
              split at hns
              · next hi => exact Or.inr ⟨heq, hd, hi⟩
              · simp at hns
            · simp at hns
        · rw [resolve_guard2 fs base spec hdt] at hns
          simp at hns
      · rw [resolve_guard1 fs base spec hrt] at hns
        simp at hns
    · rintro ⟨h1, h2, h3⟩
      rw [resolve_eq_probe fs base spec h1 h2]
      rcases h3 with hp | ⟨hp, hd, hi⟩
      · simp only [hp]
        exact ⟨_, rfl⟩
      · simp only [hp]
        rw [if_pos hd, if_pos hi]
        exact ⟨_, rfl⟩
  · intro h1 h2 hp
    rw [resolve_eq_probe fs base spec h1 h2]
    simp only [hp]

/-- Witness for C3_theorem at a concrete input, through its precedence
conjunct. -/
theorem C3_witness :
    resolve_relative_spec fsBar [] specBar = .ok (some (specBar ++ ".js".toList)) :=
  (C3_theorem fsBar [] specBar).2 (by rfl) (by decide) (by rfl)

/-- Counterexample to C3 as stated: with both the direct file bar.ts and
the directory bar containing bar/index.ts present, the exactly-one
condition of the claim is false, yet the specifier is rewritten (to the
direct-file form). -/
theorem C3_counterexample :
    [("bar.ts".toList : Chars)] ∈ fsC3.files ∧
      fsIsDir fsC3 [("bar".toList : Chars)] = true ∧
      [("bar".toList : Chars), "index.ts".toList] ∈ fsC3.files ∧
      resolve_relative_spec fsC3 [] specBar = .ok (some ("./bar.js".toList)) :=
  ⟨by decide, by rfl, by decide, by rfl⟩

/-- Claim C4, amended: the resolver is idempotent — any specifier it
returns ends in the literal suffix .js and therefore resolves to no change
on any later run, under any filesystem and base directory — but the full
statement rewriter is not idempotent: a second pass over a first pass's
output can substitute again (see the counterexample, where a first-pass
rewrite inside one quoted region exposes a fresh static-import match). -/
theorem C4_theorem (fs fs2 : FS) (base base2 : List Chars) (spec ns : Chars)
    (h : resolve_relative_spec fs base spec = .ok (some ns)) :
    resolve_relative_spec fs2 base2 ns = .ok none :=
  resolve_none_of_runtime fs2 base2 ns (resolve_some_ends_js fs base spec ns h)

/-- Witness for C4_theorem at a concrete input: ./bar resolves to ./bar.js,
and ./bar.js resolves to no change even on the empty filesystem. -/
theorem C4_witness :
    resolve_relative_spec fsBar [] specBar = .ok (some ("./bar.js".toList)) ∧
      resolve_relative_spec fsEmpty [] ("./bar.js".toList) = .ok none :=
  ⟨by rfl, C4_theorem fsBar fsEmpty [] [] specBar ("./bar.js".toList) (by rfl)⟩

/-- Counterexample to C4 as stated: applying the rewriter to the text it
already produced changes that text again and reports the changed flag, so a
second run over an unchanged filesystem is not a no-op. -/
theorem C4_counterexample :
    update_specifiers fsC4 [] t0C4 = .ok (t1C4, true) ∧
      update_specifiers fsC4 [] t1C4 = .ok (t2C4, true) ∧ t2C4 ≠ t1C4 :=
  ⟨by rfl, by rfl, by decide⟩

/-- Claim C5, confirmed: a specifier whose last path segment contains a dot
resolves to no change regardless of the filesystem; in particular a
specifier already ending in .js, .mjs or .cjs is left untouched, so no
extension is ever double-appended. -/
theorem C5_theorem (fs : FS) (base : List Chars) (spec : Chars)
    (h : hasDot (lastSeg spec) = true ∨ hasRuntimeExt spec = true) :
    resolve_relative_spec fs base spec = .ok none := by
  rcases h with h | h
  · exact resolve_guard2 fs base spec h
  · exact resolve_guard1 fs base spec h

/-- Witness for C5_theorem at a concrete input: ./styles.css is left
unchanged even though the filesystem is nonempty. -/
theorem C5_witness :
    hasDot (lastSeg specCss) = true ∧
      resolve_relative_spec fsBar [] specCss = .ok none :=
  ⟨by decide, C5_theorem fsBar [] specCss (Or.inl (by decide))⟩

/-- Claim C6, amended: when the direct-file probe completes with no match
and the directory-index rule does not apply, the resolver returns no change
and raises no error; the original claim fails because a specifier that
resolves to the filesystem root (empty final name) makes Path.with_suffix
raise ValueError inside the probe, which propagates and fails the file. -/
theorem C6_theorem (fs : FS) (base : List Chars) (spec : Chars)
    (hprobe : probeDirect fs (pyJoin base spec) (TS_EXTENSIONS ++ JS_EXTENSIONS) =
      .ok false)
    (hno : fsIsDir fs (pyJoin base spec) = false ∨
      probeIndex fs (pyJoin base spec) (TS_EXTENSIONS ++ JS_EXTENSIONS) = false) :
    resolve_relative_spec fs base spec = .ok none := by
  rcases hrt : hasRuntimeExt spec
  · rcases hdt : hasDot (lastSeg spec)
    · rw [resolve_eq_probe fs base spec hrt hdt]
      simp only [hprobe]
      rcases hno with hno | hno
      · rw [if_neg (by simp [hno])]
      · rcases hdir : fsIsDir fs (pyJoin base spec)
        · rw [if_neg (by simp)]
        · rw [if_pos rfl, if_neg (by simp [hno])]
    · exact resolve_guard2 fs base spec hdt
  · exact resolve_guard1 fs base spec hrt

/-- Witness for C6_theorem at a concrete input: ./missing matches neither
rule on the empty filesystem and resolves to no change without error. -/
theorem C6_witness :
    probeDirect fsEmpty (pyJoin [] specMissing) (TS_EXTENSIONS ++ JS_EXTENSIONS) =
      .ok false ∧
      resolve_relative_spec fsEmpty [] specMissing = .ok none :=
  ⟨by rfl, C6_theorem fsEmpty [] specMissing (by rfl) (Or.inl (by rfl))⟩

/-- Counterexample to C6 as stated: the specifier /x/../ begins with a
relative marker and matches neither rule on the empty filesystem, yet the
resolver raises (the modeled ValueError of with_suffix on the filesystem
root) instead of returning no change, and the rewriter propagates the
error, failing the file. -/
theorem C6_counterexample :
    hasDot (lastSeg specRoot) = false ∧
      resolve_relative_spec fsEmpty [] specRoot = .error () ∧
      update_specifiers fsEmpty [] textRoot = .error () :=
  ⟨by decide, by rfl, by rfl⟩

/-- Claim C7, amended: the static and dynamic shapes have mutually
exclusive prefixes, so a static match and a dynamic match inside one text
never capture a specifier at the same position (the text before a static
specifier ends in the from token, then whitespace, then a quote, while
before a dynamic specifier it ends in the import-parenthesis token, then
whitespace, then a quote, and no text ends in both); the export shape
however shares the from-quote prefix with the static shape, and an
export-from specifier occurrence is matched and processed by both of those
scans (see the counterexample). -/
theorem C7_theorem (a b s1 s2 p sp qc r p2 sp2 qc2 r2 : Chars)
    (hS : matchStatic s1 = some (p, sp, qc, r))
    (hD : matchDynamic s2 = some (p2, sp2, qc2, r2))
    (heq : a ++ s1 = b ++ s2) :
    a.length + p.length ≠ b.length + p2.length := by
  intro hlen
  obtain ⟨hd1, ⟨ws, q, hp, -, hwsp, -⟩, -, -⟩ := matchStatic_eq _ _ _ _ _ hS
  obtain ⟨hd2, ⟨ws2, q2, hp2, hwsp2, -⟩, -, -⟩ := matchDynamic_eq _ _ _ _ _ hD
  have e1 : (a ++ p) ++ (sp ++ (qc ++ r)) = (b ++ p2) ++ (sp2 ++ (qc2 ++ r2)) := by
    have ha : a ++ s1 = (a ++ p) ++ (sp ++ (qc ++ r)) := by
      rw [hd1]
      simp [List.append_assoc]
    have hb : b ++ s2 = (b ++ p2) ++ (sp2 ++ (qc2 ++ r2)) := by
      rw [hd2]
      simp [List.append_assoc]
    rw [← ha, ← hb]
    exact heq
  have hlen2 : (a ++ p).length = (b ++ p2).length := by
    simp [hlen]
  have hab := (List.append_inj e1 hlen2).1
  rw [hp, hp2] at hab
  rw [show ("from".toList : Chars) = 'f' :: 'r' :: 'o' :: 'm' :: [] from rfl,
    show ("import(".toList : Chars) = 'i' :: 'm' :: 'p' :: 'o' :: 'r' :: 't' :: '(' :: []
      from rfl] at hab
  have hrev := congrArg List.reverse hab
  simp only [List.reverse_append, List.reverse_cons, List.reverse_nil,
    List.nil_append, List.cons_append, List.append_assoc, List.append_nil] at hrev
  simp only [List.cons.injEq] at hrev
  obtain ⟨-, htail⟩ := hrev
  have hmc := ws_align ws.reverse ws2.reverse 'm' '(' _ _
    (fun c hc => hwsp c (List.mem_reverse.mp hc))
    (fun c hc => hwsp2 c (List.mem_reverse.mp hc))
    (by decide) (by decide) htail
  cases hmc

/-- Witness for C7_theorem at a concrete input: one text containing a
static site and a dynamic site, whose specifier positions differ. -/
theorem C7_witness :
    matchStatic tSD =
      some ("from \"".toList, "./a".toList, "\"".toList, " import(\"./b\")".toList) ∧
      matchDynamic tSD2 =
        some ("import(\"".toList, "./b".toList, "\"".toList, ")".toList) ∧
      ([] : Chars) ++ tSD = bSD ++ tSD2 ∧
      ([] : Chars).length + ("from \"".toList : Chars).length ≠
        bSD.length + ("import(\"".toList : Chars).length :=
  ⟨by rfl, by rfl, by rfl,
    C7_theorem [] bSD tSD tSD2 ("from \"".toList) ("./a".toList) ("\"".toList)
      (" import(\"./b\")".toList) ("import(\"".toList) ("./b".toList) ("\"".toList)
      (")".toList) (by rfl) (by rfl) (by rfl)⟩

/-- Counterexample to C7 as stated: the single specifier occurrence of an
export-from statement is matched and substituted both by the static scan
and by the export scan over the same original text, because the static
from-quote prefix occurs inside the export shape; the prefixes of the three
shapes are not mutually exclusive. -/
theorem C7_counterexample :
    subScan matchStatic fsBar [] textExp = .ok (textExpOut, true) ∧
      subScan matchExport fsBar [] textExp = .ok (textExpOut, true) :=
  ⟨by rfl, by rfl⟩

/-- Claim C8, amended: every specifier captured by any of the three shapes
begins with a dot or a slash, so a bare package name such as lodash never
matches and never enters the resolver; a captured specifier need not,
however, begin with one of the three full relative markers, and such a
specifier does enter the resolver and can be rewritten (see the
counterexample). -/
theorem C8_theorem (s p sp qc r : Chars)
    (h : matchStatic s = some (p, sp, qc, r) ∨
      matchDynamic s = some (p, sp, qc, r) ∨
      matchExport s = some (p, sp, qc, r)) :
    sp.head? = some '.' ∨ sp.head? = some '/' := by
  rcases h with h | h | h
  · exact (matchStatic_eq _ _ _ _ _ h).2.2.2
  · exact (matchDynamic_eq _ _ _ _ _ h).2.2.2
  · exact (matchExport_eq _ _ _ _ _ h).2.2.2

/-- Witness for C8_theorem at a concrete input. -/
theorem C8_witness :
    matchStatic ("from \"./a\"".toList) =
      some ("from \"".toList, "./a".toList, "\"".toList, []) ∧
      (("./a".toList : Chars).head? = some '.' ∨
        ("./a".toList : Chars).head? = some '/') :=
  ⟨by rfl, C8_theorem ("from \"./a\"".toList) ("from \"".toList) ("./a".toList)
    ("\"".toList) [] (Or.inl (by rfl))⟩

/-- Counterexample to C8 as stated: the captured specifier .foo/bar begins
with none of the three relative markers, yet it enters the resolver and is
rewritten when the file .foo/bar.ts exists. -/
theorem C8_counterexample :
    (¬ (specFoo.take 2 = "./".toList ∨ specFoo.take 3 = "../".toList ∨
      specFoo.take 1 = "/".toList)) ∧
      update_specifiers fsFoo [] textFoo = .ok (textFooOut, true) :=
  ⟨by decide, by rfl⟩

/-- Claim C9, confirmed: the on-disk content is overwritten with the
rewriter output exactly when the changed flag is set; when the flag is not
set the content is unchanged (the rewriter output then equals the input);
and the flag is set exactly when at least one captured specifier was
substituted for a different string in one of the three scans. -/
theorem C9_theorem (fs : FS) (base : List Chars) (content t1 t2 t3 : Chars)
    (ch1 ch2 ch3 : Bool)
    (h1 : subScan matchStatic fs base content = .ok (t1, ch1))
    (h2 : subScan matchDynamic fs base t1 = .ok (t2, ch2))
    (h3 : subScan matchExport fs base t2 = .ok (t3, ch3)) :
    process_file fs base content =
      .ok ((if (ch1 || ch2 || ch3) then t3 else content), ch1 || ch2 || ch3) ∧
    ((ch1 || ch2 || ch3) = false → t3 = content) ∧
    ((ch1 || ch2 || ch3) = true ↔
      (SubstOccurs matchStatic fs base content ∨
        SubstOccurs matchDynamic fs base t1 ∨
        SubstOccurs matchExport fs base t2)) := by
  have hupdate : update_specifiers fs base content = .ok (t3, ch1 || ch2 || ch3) := by
    unfold update_specifiers
    simp only [h1, h2, h3]
  refine ⟨?_, ?_, ?_⟩
  · unfold process_file
    simp only [hupdate]
  · intro hfalse
    simp only [Bool.or_eq_false_iff] at hfalse
    obtain ⟨⟨hc1, hc2⟩, hc3⟩ := hfalse
    subst hc1
    subst hc2
    subst hc3
    rw [subScan_nochange matchExport_ok h3, subScan_nochange matchDynamic_ok h2,
      subScan_nochange matchStatic_ok h1]
  · rw [Bool.or_eq_true, Bool.or_eq_true,
      subScan_flag_iff matchStatic_ok h1, subScan_flag_iff matchDynamic_ok h2,
      subScan_flag_iff matchExport_ok h3]
    exact or_assoc

/-- Witness for C9_theorem at a concrete input: a static import of ./bar is
substituted, the flag is set and the file content is overwritten with the
rewritten text. -/
theorem C9_witness :
    subScan matchStatic fsBar [] textBar = .ok (textBarOut, true) ∧
      process_file fsBar [] textBar =
        .ok ((if (true || false || false) then textBarOut else textBar),
          true || false || false) :=
  ⟨by rfl,
    (C9_theorem fsBar [] textBar textBarOut textBarOut textBarOut true false false
      (by rfl) (by rfl) (by rfl)).1⟩

/-- Claim C10, confirmed: whenever the resolver returns a new specifier
rather than no change, the returned string ends with the literal suffix
.js; this output invariant is what makes any rewritten specifier fall into
the first guard and be skipped on a later run. -/
theorem C10_theorem (fs : FS) (base : List Chars) (spec ns : Chars)
    (h : resolve_relative_spec fs base spec = .ok (some ns)) :
    endsWithS (".js".toList) ns = true :=
  resolve_some_ends_js fs base spec ns h

/-- Witness for C10_theorem at a concrete input, on the directory-index
form of the rewrite. -/
theorem C10_witness :
    resolve_relative_spec fsUtils [] specUtils =
      .ok (some ("./utils/index.js".toList)) ∧
      endsWithS (".js".toList) ("./utils/index.js".toList) = true :=
  ⟨by rfl, C10_theorem fsUtils [] specUtils ("./utils/index.js".toList) (by rfl)⟩
